import Mathlib

/-!
Verification of the TravelCal settlement engine.

The settlement computation of the repository (the `settlements` memo in the
application component, together with the record types of `src/types.ts`) is
embedded shallowly: JavaScript numbers are modelled as exact rationals,
the in-place array sort is modelled by a stable insertion sort on the
balance key, and the in-place mutation of the debtor (index 0) and creditor
(last index) of the sorted array is modelled by `applyTransfer`, which
updates both positions and therefore also captures the aliasing that occurs
when the array has a single element.  The `while (loopCount < 100)` loop is
modelled by fuel recursion (`runLoop`), which additionally reports whether
the loop stopped through its termination test (`converged`) and how many
iterations of the body ran (`iters`).
-/

namespace TravelCal

/-- `Participant` record of `src/types.ts`. -/
structure Participant where
  id : String
  name : String
deriving DecidableEq, Repr

/-- `Expense` record of `src/types.ts`. -/
structure Expense where
  id : String
  payerId : String
  amount : ℚ
  description : Option String
deriving DecidableEq, Repr

/-- `Settlement` record of `src/types.ts`. -/
structure Settlement where
  fromId : String
  toId : String
  amount : ℚ
deriving DecidableEq, Repr

/-- Working balance entry: the participant spread with its `paid` and
`balance` fields, as built by the `balances` map in the source. -/
structure Balance where
  id : String
  name : String
  paid : ℚ
  balance : ℚ
deriving DecidableEq, Repr

/-- `expenses.reduce((sum, e) => sum + e.amount, 0)`. -/
def sumAmounts (es : List Expense) : ℚ :=
  es.foldl (fun s e => s + e.amount) 0

/-- `totalSpent` of the source. -/
def totalSpent (es : List Expense) : ℚ := sumAmounts es

/-- `expenses.filter(e => e.payerId === p.id).reduce((sum, e) => sum + e.amount, 0)`. -/
def paidOf (es : List Expense) (pid : String) : ℚ :=
  sumAmounts (es.filter (fun e => e.payerId == pid))

/-- `average = totalSpent / participants.length`. -/
def averageSpend (ps : List Participant) (es : List Expense) : ℚ :=
  totalSpent es / (ps.length : ℚ)

/-- The `balances` array before the greedy loop: each participant spread
with `paid` and `balance = paid - average`. -/
def initialBalances (ps : List Participant) (es : List Expense) : List Balance :=
  ps.map (fun p => ⟨p.id, p.name, paidOf es p.id, paidOf es p.id - averageSpend ps es⟩)

/-- The sort key of `balances.sort((a, b) => a.balance - b.balance)`. -/
def balLE (a b : Balance) : Prop := a.balance ≤ b.balance

instance : DecidableRel balLE :=
  fun a b => inferInstanceAs (Decidable (a.balance ≤ b.balance))

instance : IsTotal Balance balLE := ⟨fun a b => le_total a.balance b.balance⟩

instance : IsTrans Balance balLE := ⟨fun _ _ _ h h2 => le_trans h h2⟩

/-- `balances.sort((a, b) => a.balance - b.balance)`: a stable ascending
sort on the balance key, as specified for JavaScript `Array.prototype.sort`. -/
def sortBalances (bs : List Balance) : List Balance :=
  List.insertionSort balLE bs

/-- Helper of `applyTransfer`: subtract `a` from the balance of the last
element (the creditor, `balances[balances.length - 1]`). -/
def addLast (a : ℚ) : List Balance → List Balance
  | [] => []
  | [c] => [⟨c.id, c.name, c.paid, c.balance - a⟩]
  | b :: c :: l => b :: addLast a (c :: l)

/-- `debtor.balance += amount; creditor.balance -= amount` on the sorted
array, where `debtor` aliases index `0` and `creditor` aliases the last
index.  On a one-element array both statements hit the same object, which
the one-element case reproduces. -/
def applyTransfer (a : ℚ) : List Balance → List Balance
  | [] => []
  | [b] => [⟨b.id, b.name, b.paid, b.balance + a - a⟩]
  | d :: c :: l => ⟨d.id, d.name, d.paid, d.balance + a⟩ :: addLast a (c :: l)

/-- Outcome of one pass of the loop body: either the termination test of
line `if (Math.abs(debtor.balance) < 1 && Math.abs(creditor.balance) < 1)`
fired (`done`, carrying the sorted working array), or the body ran through,
possibly emitting a settlement (`step`). -/
inductive StepResult where
  | done : List Balance → StepResult
  | step : Option Settlement → List Balance → StepResult
deriving DecidableEq, Repr

/-- One iteration of the greedy loop body. -/
def greedyStep (bs : List Balance) : StepResult :=
  match sortBalances bs with
  | [] => .done []
  | d :: rest =>
    let c := (d :: rest).getLast (List.cons_ne_nil d rest)
    if |d.balance| < 1 ∧ |c.balance| < 1 then
      .done (d :: rest)
    else
      let amount := min |d.balance| c.balance
      .step (if 0 < amount then some ⟨d.id, c.id, amount⟩ else none)
        (applyTransfer amount (d :: rest))

/-- Result of the greedy loop: the accumulated `results` list, the final
working array, whether the loop stopped through its termination test, and
how many times the body ran. -/
structure RunResult where
  settlements : List Settlement
  balances : List Balance
  converged : Bool
  iters : Nat
deriving DecidableEq, Repr

/-- `while (loopCount < 100) { ... }`, with the remaining iteration budget
as fuel. -/
def runLoop : Nat → List Balance → RunResult
  | 0, bs => ⟨[], bs, false, 0⟩
  | fuel + 1, bs =>
    match greedyStep bs with
    | .done final => ⟨[], final, true, 0⟩
    | .step emitted bs2 =>
      let r := runLoop fuel bs2
      ⟨emitted.toList ++ r.settlements, r.balances, r.converged, r.iters + 1⟩

/-- The full greedy loop of the source, run on the initial balances with
the iteration ceiling of 100. -/
def settleRun (ps : List Participant) (es : List Expense) : RunResult :=
  runLoop 100 (initialBalances ps es)

/-- The `settlements` computation: guard for empty participants, then the
greedy loop. -/
def computeSettlements (ps : List Participant) (es : List Expense) : List Settlement :=
  if ps.isEmpty then [] else (settleRun ps es).settlements

/-- Sum of the balances of a working array. -/
def sumBal : List Balance → ℚ
  | [] => 0
  | b :: l => b.balance + sumBal l

/-- Sum of the balances of the entries whose id is `pid`. -/
def balOf (pid : String) : List Balance → ℚ
  | [] => 0
  | b :: l => (if b.id = pid then b.balance else 0) + balOf pid l

/-- Net effect of a settlement list on the id `pid`: each settlement adds
its amount to its `fromId` and subtracts it from its `toId`. -/
def settleDelta (pid : String) : List Settlement → ℚ
  | [] => 0
  | s :: l =>
    (if s.fromId = pid then s.amount else 0)
      - (if s.toId = pid then s.amount else 0) + settleDelta pid l

/-- Number of entries with a nonzero balance. -/
def nzCount : List Balance → Nat
  | [] => 0
  | b :: l => (if b.balance = 0 then 0 else 1) + nzCount l

/-- Sum over the participants of their `paid` value. -/
def sumPaid (es : List Expense) : List Participant → ℚ
  | [] => 0
  | p :: l => paidOf es p.id + sumPaid es l

theorem sumAmounts_cons_aux (f : ℚ → Expense → ℚ) (hf : ∀ s e, f s e = s + e.amount)
    (a : ℚ) (es : List Expense) :
    es.foldl f a = a + es.foldl f 0 := by
  induction es generalizing a with
  | nil => simp
  | cons e es ih =>
    simp only [List.foldl_cons, hf]
    rw [ih (a + e.amount), ih (0 + e.amount)]
    ring

theorem sumAmounts_cons (e : Expense) (es : List Expense) :
    sumAmounts (e :: es) = e.amount + sumAmounts es := by
  unfold sumAmounts
  rw [List.foldl_cons, sumAmounts_cons_aux _ (fun s e => rfl)]
  simp

theorem paidOf_cons (e : Expense) (es : List Expense) (pid : String) :
    paidOf (e :: es) pid =
      (if e.payerId = pid then e.amount else 0) + paidOf es pid := by
  unfold paidOf
  rw [List.filter_cons]
  by_cases h : e.payerId = pid
  · simp [h, sumAmounts_cons]
  · simp [h]

theorem paidOf_nil (pid : String) : paidOf [] pid = 0 := rfl

/-! ### Permutation and membership lemmas for the balance aggregates -/

theorem sumBal_perm {l l2 : List Balance} (h : List.Perm l l2) : sumBal l = sumBal l2 := by
  induction h with
  | nil => rfl
  | cons x _ ih => simp [sumBal, ih]
  | swap x y l => simp [sumBal]; ring
  | trans _ _ ih1 ih2 => rw [ih1, ih2]

theorem sumBal_append (l l2 : List Balance) :
    sumBal (l ++ l2) = sumBal l + sumBal l2 := by
  induction l with
  | nil => simp [sumBal]
  | cons b l ih => simp [sumBal, ih]; ring

theorem balOf_perm (pid : String) {l l2 : List Balance} (h : List.Perm l l2) :
    balOf pid l = balOf pid l2 := by
  induction h with
  | nil => rfl
  | cons x _ ih => simp [balOf, ih]
  | swap x y l => simp [balOf]; ring
  | trans _ _ ih1 ih2 => rw [ih1, ih2]

theorem balOf_append (pid : String) (l l2 : List Balance) :
    balOf pid (l ++ l2) = balOf pid l + balOf pid l2 := by
  induction l with
  | nil => simp [balOf]
  | cons b l ih => simp [balOf, ih]; ring

theorem nzCount_perm {l l2 : List Balance} (h : List.Perm l l2) : nzCount l = nzCount l2 := by
  induction h with
  | nil => rfl
  | cons x _ ih => simp [nzCount, ih]
  | swap x y l => simp [nzCount]; ring
  | trans _ _ ih1 ih2 => rw [ih1, ih2]

theorem nzCount_append (l l2 : List Balance) :
    nzCount (l ++ l2) = nzCount l + nzCount l2 := by
  induction l with
  | nil => simp [nzCount]
  | cons b l ih => simp [nzCount, ih]; ring

theorem nzCount_le_length (l : List Balance) : nzCount l ≤ l.length := by
  induction l with
  | nil => simp [nzCount]
  | cons b l ih =>
    simp only [nzCount, List.length_cons]
    split <;> omega

theorem sumBal_nonneg {l : List Balance} (h0 : ∀ b ∈ l, 0 ≤ b.balance) :
    0 ≤ sumBal l := by
  induction l with
  | nil => simp [sumBal]
  | cons b l ih =>
    simp only [sumBal]
    have hb := h0 b (by simp)
    have hl := ih (fun x hx => h0 x (by simp [hx]))
    linarith

theorem sumBal_pos_of_mem {l : List Balance} (h0 : ∀ b ∈ l, 0 ≤ b.balance)
    {c : Balance} (hc : c ∈ l) (hcpos : 0 < c.balance) : 0 < sumBal l := by
  induction l with
  | nil => cases hc
  | cons b l ih =>
    simp only [sumBal]
    have hl0 : ∀ x ∈ l, 0 ≤ x.balance := fun x hx => h0 x (by simp [hx])
    rcases List.mem_cons.mp hc with rfl | hc2
    · have := sumBal_nonneg hl0
      linarith
    · have hb := h0 b (by simp)
      have := ih hl0 hc2
      linarith

/-! ### Sorting lemmas -/

theorem sortBalances_perm (bs : List Balance) : List.Perm (sortBalances bs) bs :=
  List.perm_insertionSort balLE bs

theorem sortBalances_sorted (bs : List Balance) : List.Sorted balLE (sortBalances bs) :=
  List.sorted_insertionSort balLE bs

theorem sortBalances_ne_nil {bs : List Balance} (h : bs ≠ []) : sortBalances bs ≠ [] := by
  intro h2
  exact h (List.Perm.eq_nil ((sortBalances_perm bs).symm.trans (h2 ▸ List.Perm.refl _)))

theorem sorted_head_le {d : Balance} {rest : List Balance}
    (h : List.Sorted balLE (d :: rest)) :
    ∀ b ∈ d :: rest, d.balance ≤ b.balance := by
  intro b hb
  rcases List.mem_cons.mp hb with rfl | hb2
  · exact le_refl _
  · exact (List.sorted_cons.mp h).1 b hb2

theorem sorted_le_getLast {l : List Balance} (h : List.Sorted balLE l) (hne : l ≠ []) :
    ∀ b ∈ l, b.balance ≤ (l.getLast hne).balance := by
  induction l with
  | nil => simp
  | cons x t ih =>
    intro b hb
    cases t with
    | nil =>
      simp only [List.mem_singleton] at hb
      subst hb
      exact le_refl _
    | cons y t2 =>
      rw [List.getLast_cons (by simp)]
      rcases List.mem_cons.mp hb with rfl | hb2
      · have hmem : (y :: t2).getLast (by simp) ∈ y :: t2 := List.getLast_mem _
        exact (List.sorted_cons.mp h).1 _ hmem
      · exact ih (List.sorted_cons.mp h).2 (by simp) b hb2

/-! ### Structure of applyTransfer -/

theorem addLast_eq {l : List Balance} (hne : l ≠ []) (a : ℚ) :
    addLast a l = l.dropLast ++
      [⟨(l.getLast hne).id, (l.getLast hne).name, (l.getLast hne).paid,
        (l.getLast hne).balance - a⟩] := by
  induction l with
  | nil => exact absurd rfl hne
  | cons b t ih =>
    cases t with
    | nil => simp [addLast]
    | cons c t2 =>
      rw [show addLast a (b :: c :: t2) = b :: addLast a (c :: t2) from rfl]
      rw [ih (by simp)]
      simp [List.getLast_cons]

theorem applyTransfer_eq {d : Balance} {rest : List Balance} (hne : rest ≠ []) (a : ℚ) :
    applyTransfer a (d :: rest) =
      ⟨d.id, d.name, d.paid, d.balance + a⟩ ::
        (rest.dropLast ++
          [⟨(rest.getLast hne).id, (rest.getLast hne).name, (rest.getLast hne).paid,
            (rest.getLast hne).balance - a⟩]) := by
  cases rest with
  | nil => exact absurd rfl hne
  | cons c t =>
    rw [show applyTransfer a (d :: c :: t) =
      ⟨d.id, d.name, d.paid, d.balance + a⟩ :: addLast a (c :: t) from rfl]
    rw [addLast_eq (by simp)]

theorem map_id_addLast (a : ℚ) (l : List Balance) :
    (addLast a l).map Balance.id = l.map Balance.id := by
  induction l with
  | nil => rfl
  | cons b t ih =>
    cases t with
    | nil => simp [addLast]
    | cons c t2 =>
      rw [show addLast a (b :: c :: t2) = b :: addLast a (c :: t2) from rfl]
      simp [ih]

theorem map_id_applyTransfer (a : ℚ) (l : List Balance) :
    (applyTransfer a l).map Balance.id = l.map Balance.id := by
  cases l with
  | nil => rfl
  | cons b t =>
    cases t with
    | nil => simp [applyTransfer]
    | cons c t2 =>
      rw [show applyTransfer a (b :: c :: t2) =
        ⟨b.id, b.name, b.paid, b.balance + a⟩ :: addLast a (c :: t2) from rfl]
      simp [map_id_addLast]

theorem length_applyTransfer (a : ℚ) (l : List Balance) :
    (applyTransfer a l).length = l.length := by
  have h := congrArg List.length (map_id_applyTransfer a l)
  simpa using h

theorem addLast_zero (l : List Balance) : addLast 0 l = l := by
  induction l with
  | nil => rfl
  | cons b t ih =>
    cases t with
    | nil => simp [addLast]
    | cons c t2 =>
      rw [show addLast 0 (b :: c :: t2) = b :: addLast 0 (c :: t2) from rfl, ih]

theorem applyTransfer_zero (l : List Balance) : applyTransfer 0 l = l := by
  cases l with
  | nil => rfl
  | cons b t =>
    cases t with
    | nil => simp [applyTransfer]
    | cons c t2 =>
      rw [show applyTransfer 0 (b :: c :: t2) =
        ⟨b.id, b.name, b.paid, b.balance + 0⟩ :: addLast 0 (c :: t2) from rfl]
      rw [addLast_zero]
      simp

theorem sumBal_addLast {l : List Balance} (hne : l ≠ []) (a : ℚ) :
    sumBal (addLast a l) = sumBal l - a := by
  rw [addLast_eq hne, sumBal_append]
  conv_rhs => rw [← List.dropLast_append_getLast hne, sumBal_append]
  simp [sumBal]
  ring

theorem sumBal_applyTransfer (a : ℚ) (l : List Balance) :
    sumBal (applyTransfer a l) = sumBal l := by
  cases l with
  | nil => rfl
  | cons d t =>
    cases t with
    | nil =>
      simp only [applyTransfer, sumBal]
      ring
    | cons c t2 =>
      rw [show applyTransfer a (d :: c :: t2) =
        ⟨d.id, d.name, d.paid, d.balance + a⟩ :: addLast a (c :: t2) from rfl]
      rw [show sumBal (⟨d.id, d.name, d.paid, d.balance + a⟩ :: addLast a (c :: t2)) =
        (d.balance + a) + sumBal (addLast a (c :: t2)) from rfl]
      rw [sumBal_addLast (show (c :: t2) ≠ [] from by simp)]
      rw [show sumBal (d :: c :: t2) = d.balance + sumBal (c :: t2) from rfl]
      ring

theorem balOf_addLast (pid : String) {l : List Balance} (hne : l ≠ []) (a : ℚ) :
    balOf pid (addLast a l) =
      balOf pid l - (if (l.getLast hne).id = pid then a else 0) := by
  have hsplit : balOf pid l = balOf pid l.dropLast +
      (if (l.getLast hne).id = pid then (l.getLast hne).balance else 0) := by
    conv_lhs => rw [← List.dropLast_append_getLast hne]
    rw [balOf_append]
    simp [balOf]
  rw [addLast_eq hne, balOf_append, hsplit]
  simp only [balOf]
  by_cases h : (l.getLast hne).id = pid
  · simp only [if_pos h]; ring
  · simp only [if_neg h]; ring

theorem balOf_applyTransfer (pid : String) {l : List Balance} (hne : l ≠ []) (a : ℚ) :
    balOf pid (applyTransfer a l) =
      balOf pid l + (if (l.head hne).id = pid then a else 0)
        - (if (l.getLast hne).id = pid then a else 0) := by
  cases l with
  | nil => exact absurd rfl hne
  | cons d t =>
    cases t with
    | nil =>
      simp only [applyTransfer, balOf, List.head_cons, List.getLast_singleton]
      by_cases h : d.id = pid
      · simp only [if_pos h]; ring
      · simp only [if_neg h]; ring
    | cons c t2 =>
      have ht : (c :: t2) ≠ [] := by simp
      have hlast : (d :: c :: t2).getLast hne = (c :: t2).getLast ht := List.getLast_cons ht
      rw [show applyTransfer a (d :: c :: t2) =
        ⟨d.id, d.name, d.paid, d.balance + a⟩ :: addLast a (c :: t2) from rfl]
      rw [show balOf pid (⟨d.id, d.name, d.paid, d.balance + a⟩ :: addLast a (c :: t2)) =
        (if d.id = pid then d.balance + a else 0) + balOf pid (addLast a (c :: t2)) from rfl]
      rw [balOf_addLast pid ht, hlast, List.head_cons]
      rw [show balOf pid (d :: c :: t2) =
        (if d.id = pid then d.balance else 0) + balOf pid (c :: t2) from rfl]
      by_cases h1 : d.id = pid
      · by_cases h2 : ((c :: t2).getLast ht).id = pid
        · simp only [if_pos h1, if_pos h2]
          ring
        · simp only [if_pos h1, if_neg h2]
          ring
      · by_cases h2 : ((c :: t2).getLast ht).id = pid
        · simp only [if_neg h1, if_pos h2]
          ring
        · simp only [if_neg h1, if_neg h2]
          ring

/-! ### Inversion lemmas for one loop iteration -/

theorem greedyStep_done_eq_sort {bs final : List Balance}
    (h : greedyStep bs = .done final) : final = sortBalances bs := by
  unfold greedyStep at h
  cases hs : sortBalances bs with
  | nil => rw [hs] at h; cases h; rfl
  | cons d rest =>
    rw [hs] at h
    dsimp only at h
    split at h
    · cases h; rfl
    · cases h

theorem greedyStep_done_break {bs : List Balance} {d : Balance} {rest : List Balance}
    (hs : sortBalances bs = d :: rest) {final : List Balance}
    (h : greedyStep bs = .done final) :
    |d.balance| < 1 ∧
      |((d :: rest).getLast (List.cons_ne_nil d rest)).balance| < 1 ∧
      final = d :: rest := by
  unfold greedyStep at h
  rw [hs] at h
  dsimp only at h
  split at h
  · rename_i hbr
    cases h
    exact ⟨hbr.1, hbr.2, rfl⟩
  · cases h

theorem greedyStep_step_inv {bs : List Balance} {em : Option Settlement}
    {bs2 : List Balance} (h : greedyStep bs = .step em bs2) :
    ∃ (d : Balance) (rest : List Balance), sortBalances bs = d :: rest ∧
      (let c := (d :: rest).getLast (List.cons_ne_nil d rest)
       let amount := min |d.balance| c.balance
       ¬(|d.balance| < 1 ∧ |c.balance| < 1) ∧
         em = (if 0 < amount then some ⟨d.id, c.id, amount⟩ else none) ∧
         bs2 = applyTransfer amount (d :: rest)) := by
  unfold greedyStep at h
  cases hs : sortBalances bs with
  | nil => rw [hs] at h; cases h
  | cons d rest =>
    rw [hs] at h
    dsimp only at h
    split at h
    · cases h
    · rename_i hbr
      cases h
      exact ⟨d, rest, rfl, hbr, rfl, rfl⟩

theorem runLoop_step_eq (fuel : Nat) {bs : List Balance} {emitted : Option Settlement}
    {bs2 : List Balance} (h : greedyStep bs = .step emitted bs2) :
    runLoop (fuel + 1) bs =
      ⟨emitted.toList ++ (runLoop fuel bs2).settlements, (runLoop fuel bs2).balances,
        (runLoop fuel bs2).converged, (runLoop fuel bs2).iters + 1⟩ := by
  rw [runLoop, h]

theorem runLoop_done_eq (fuel : Nat) {bs final : List Balance}
    (h : greedyStep bs = .done final) :
    runLoop (fuel + 1) bs = ⟨[], final, true, 0⟩ := by
  rw [runLoop, h]

/-! ### Facts about the running loop -/

theorem mem_of_mem_dropLast {x : Balance} {l : List Balance} (hne : l ≠ [])
    (h : x ∈ l.dropLast) : x ∈ l := by
  have h2 : x ∈ l.dropLast ++ [l.getLast hne] := List.mem_append_left _ h
  rw [List.dropLast_append_getLast hne] at h2
  exact h2

theorem mem_applyTransfer_cons {a : ℚ} {d : Balance} {rest : List Balance} (hne : rest ≠ [])
    {x : Balance} (hx : x ∈ applyTransfer a (d :: rest)) :
    x.balance = d.balance + a ∨ x ∈ rest.dropLast ∨
      x.balance = (rest.getLast hne).balance - a := by
  rw [applyTransfer_eq hne] at hx
  rcases List.mem_cons.mp hx with rfl | hx2
  · left; rfl
  · rcases List.mem_append.mp hx2 with h3 | h3
    · right; left; exact h3
    · right; right
      simp only [List.mem_singleton] at h3
      rw [h3]

theorem mem_sortBalances {x : Balance} {bs : List Balance} :
    x ∈ sortBalances bs ↔ x ∈ bs :=
  (sortBalances_perm bs).mem_iff

theorem sortBalances_head_min {bs : List Balance} {d : Balance} {rest : List Balance}
    (hs : sortBalances bs = d :: rest) :
    ∀ b ∈ bs, d.balance ≤ b.balance := by
  intro b hb
  have hsort := sortBalances_sorted bs
  rw [hs] at hsort
  exact sorted_head_le hsort b (by rw [← hs]; exact mem_sortBalances.mpr hb)

theorem sortBalances_getLast_max {bs : List Balance} {d : Balance} {rest : List Balance}
    (hs : sortBalances bs = d :: rest) :
    ∀ b ∈ bs, b.balance ≤ ((d :: rest).getLast (List.cons_ne_nil d rest)).balance := by
  intro b hb
  have hsort := sortBalances_sorted bs
  rw [hs] at hsort
  exact sorted_le_getLast hsort (List.cons_ne_nil d rest) b
    (by rw [← hs]; exact mem_sortBalances.mpr hb)

theorem head_mem_of_sort {bs : List Balance} {d : Balance} {rest : List Balance}
    (hs : sortBalances bs = d :: rest) : d ∈ bs := by
  rw [← mem_sortBalances, hs]
  exact List.mem_cons_self d rest

theorem getLast_mem_of_sort {bs : List Balance} {d : Balance} {rest : List Balance}
    (hs : sortBalances bs = d :: rest) :
    (d :: rest).getLast (List.cons_ne_nil d rest) ∈ bs := by
  rw [← mem_sortBalances, hs]
  exact List.getLast_mem _

theorem runLoop_iters_le (fuel : Nat) : ∀ bs : List Balance, (runLoop fuel bs).iters ≤ fuel := by
  induction fuel with
  | zero => intro bs; exact le_refl 0
  | succ fuel ih =>
    intro bs
    cases hgs : greedyStep bs with
    | done final => rw [runLoop_done_eq fuel hgs]; simp
    | step em bs2 =>
      rw [runLoop_step_eq fuel hgs]
      exact Nat.succ_le_succ (ih bs2)

/-- A working array that is all nonpositive with at least one balance at or
below the negative tolerance can never reach the termination test:
the loop keeps running (with nonpositive transfer amounts) until the
iteration cap hits. -/
theorem runLoop_frozen (fuel : Nat) :
    ∀ bs : List Balance, bs ≠ [] →
      (∀ b ∈ bs, b.balance ≤ 0) → (∃ b ∈ bs, b.balance ≤ -1) →
      (runLoop fuel bs).converged = false := by
  induction fuel with
  | zero => intro bs _ _ _; rfl
  | succ fuel ih =>
    intro bs hne hall hex
    cases hs : sortBalances bs with
    | nil => exact absurd hs (sortBalances_ne_nil hne)
    | cons d rest =>
      have hd1 : d.balance ≤ -1 := by
        obtain ⟨b, hb, hble⟩ := hex
        exact le_trans (sortBalances_head_min hs b hb) hble
      have hcmem := getLast_mem_of_sort hs
      have hc0 : ((d :: rest).getLast (List.cons_ne_nil d rest)).balance ≤ 0 :=
        hall _ hcmem
      cases hgs : greedyStep bs with
      | done final =>
        exfalso
        obtain ⟨hbr1, _, _⟩ := greedyStep_done_break hs hgs
        rw [abs_of_nonpos (by linarith)] at hbr1
        linarith
      | step em bs2 =>
        rw [runLoop_step_eq fuel hgs]
        show (runLoop fuel bs2).converged = false
        obtain ⟨d2, rest2, hs2, hinv⟩ := greedyStep_step_inv hgs
        rw [hs] at hs2
        cases hs2
        dsimp only at hinv
        obtain ⟨hnb, hem, hbs2⟩ := hinv
        have habs : |d.balance| = -d.balance := abs_of_nonpos (by linarith)
        have hmin : min |d.balance| ((d :: rest).getLast (List.cons_ne_nil d rest)).balance =
            ((d :: rest).getLast (List.cons_ne_nil d rest)).balance := by
          apply min_eq_right
          rw [habs]
          linarith
        rw [hmin] at hbs2
        apply ih bs2
        · intro h0
          have hlen := length_applyTransfer
            ((d :: rest).getLast (List.cons_ne_nil d rest)).balance (d :: rest)
          rw [← hbs2, h0] at hlen
          simp at hlen
        · intro x hx
          rw [hbs2] at hx
          by_cases hrne : rest = []
          · subst hrne
            simp only [List.getLast_singleton] at hx
            rcases List.mem_singleton.mp hx with rfl
            show d.balance + d.balance - d.balance ≤ 0
            linarith
          · have hgl : (d :: rest).getLast (List.cons_ne_nil d rest) =
                rest.getLast hrne := List.getLast_cons hrne
            rw [hgl] at hx
            rcases mem_applyTransfer_cons hrne hx with h1 | h1 | h1
            · rw [h1, ← hgl]
              linarith
            · have hxr : x ∈ d :: rest :=
                List.mem_cons_of_mem d (mem_of_mem_dropLast hrne h1)
              exact hall x (mem_sortBalances.mp (by rw [hs]; exact hxr))
            · rw [h1]
              linarith
        · rw [hbs2]
          by_cases hrne : rest = []
          · subst hrne
            refine ⟨⟨d.id, d.name, d.paid,
              d.balance + ([d].getLast (List.cons_ne_nil d [])).balance -
                ([d].getLast (List.cons_ne_nil d [])).balance⟩,
              List.mem_singleton.mpr rfl, ?_⟩
            show d.balance + ([d].getLast (List.cons_ne_nil d [])).balance -
              ([d].getLast (List.cons_ne_nil d [])).balance ≤ -1
            linarith
          · have hgl : (d :: rest).getLast (List.cons_ne_nil d rest) =
                rest.getLast hrne := List.getLast_cons hrne
            rw [hgl, applyTransfer_eq hrne]
            refine ⟨⟨d.id, d.name, d.paid,
              d.balance + (rest.getLast hrne).balance⟩, List.mem_cons_self _ _, ?_⟩
            show d.balance + (rest.getLast hrne).balance ≤ -1
            rw [← hgl]
            linarith

/-- A loop body whose transfer amount is negative (which forces every
working balance to be negative) leaves the array frozen below the
tolerance, so the remaining run cannot converge. -/
theorem frozen_after_neg (fuel : Nat) {d : Balance} {rest : List Balance}
    (hsorted : List.Sorted balLE (d :: rest))
    (hnb : ¬(|d.balance| < 1 ∧
      |((d :: rest).getLast (List.cons_ne_nil d rest)).balance| < 1))
    (hneg : min |d.balance| ((d :: rest).getLast (List.cons_ne_nil d rest)).balance < 0) :
    (runLoop fuel (applyTransfer
      (min |d.balance| ((d :: rest).getLast (List.cons_ne_nil d rest)).balance)
      (d :: rest))).converged = false := by
  have hcneg : ((d :: rest).getLast (List.cons_ne_nil d rest)).balance < 0 := by
    rcases min_lt_iff.mp hneg with h | h
    · exact absurd h (not_lt.mpr (abs_nonneg _))
    · exact h
  have hdlec : d.balance ≤ ((d :: rest).getLast (List.cons_ne_nil d rest)).balance :=
    sorted_le_getLast hsorted (List.cons_ne_nil d rest) d (List.mem_cons_self d rest)
  have hdneg : d.balance < 0 := lt_of_le_of_lt hdlec hcneg
  have habs : |d.balance| = -d.balance := abs_of_neg hdneg
  have hd1 : d.balance ≤ -1 := by
    rcases not_and_or.mp hnb with h | h
    · rw [not_lt, habs] at h
      linarith
    · rw [not_lt, abs_of_neg hcneg] at h
      linarith
  have hmin : min |d.balance| ((d :: rest).getLast (List.cons_ne_nil d rest)).balance =
      ((d :: rest).getLast (List.cons_ne_nil d rest)).balance := by
    apply min_eq_right
    rw [habs]
    linarith
  rw [hmin]
  apply runLoop_frozen
  · intro h0
    have hlen := length_applyTransfer
      ((d :: rest).getLast (List.cons_ne_nil d rest)).balance (d :: rest)
    rw [h0] at hlen
    simp at hlen
  · intro x hx
    by_cases hrne : rest = []
    · subst hrne
      simp only [List.getLast_singleton] at hx
      rcases List.mem_singleton.mp hx with rfl
      show d.balance + d.balance - d.balance ≤ 0
      linarith
    · have hgl : (d :: rest).getLast (List.cons_ne_nil d rest) = rest.getLast hrne :=
        List.getLast_cons hrne
      rw [hgl] at hx
      rcases mem_applyTransfer_cons hrne hx with h1 | h1 | h1
      · rw [h1, ← hgl]
        linarith
      · have hxr : x ∈ d :: rest := List.mem_cons_of_mem d (mem_of_mem_dropLast hrne h1)
        have := sorted_le_getLast hsorted (List.cons_ne_nil d rest) x hxr
        linarith
      · rw [h1]
        linarith
  · by_cases hrne : rest = []
    · subst hrne
      refine ⟨⟨d.id, d.name, d.paid,
        d.balance + ([d].getLast (List.cons_ne_nil d [])).balance -
          ([d].getLast (List.cons_ne_nil d [])).balance⟩,
        List.mem_singleton.mpr rfl, ?_⟩
      show d.balance + ([d].getLast (List.cons_ne_nil d [])).balance -
        ([d].getLast (List.cons_ne_nil d [])).balance ≤ -1
      simp only [List.getLast_singleton]
      linarith
    · have hgl : (d :: rest).getLast (List.cons_ne_nil d rest) = rest.getLast hrne :=
        List.getLast_cons hrne
      rw [hgl, applyTransfer_eq hrne]
      refine ⟨⟨d.id, d.name, d.paid, d.balance + (rest.getLast hrne).balance⟩,
        List.mem_cons_self _ _, ?_⟩
      show d.balance + (rest.getLast hrne).balance ≤ -1
      rw [← hgl]
      linarith

/-- On a converged run every final balance lies strictly inside the
tolerance band: the termination test checks the extreme entries of the
sorted array, which bound all the others. -/
theorem runLoop_band (fuel : Nat) :
    ∀ bs : List Balance, (runLoop fuel bs).converged = true →
      ∀ b ∈ (runLoop fuel bs).balances, |b.balance| < 1 := by
  induction fuel with
  | zero => intro bs hconv; simp [runLoop] at hconv
  | succ fuel ih =>
    intro bs hconv b hb
    cases hgs : greedyStep bs with
    | done final =>
      rw [runLoop_done_eq fuel hgs] at hb
      have hfin := greedyStep_done_eq_sort hgs
      cases hs : sortBalances bs with
      | nil =>
        rw [hfin, hs] at hb
        cases hb
      | cons d rest =>
        obtain ⟨hd1, hc1, _⟩ := greedyStep_done_break hs hgs
        rw [hfin, hs] at hb
        have hsorted := sortBalances_sorted bs
        rw [hs] at hsorted
        have h1 := sorted_head_le hsorted b hb
        have h2 := sorted_le_getLast hsorted (List.cons_ne_nil d rest) b hb
        rw [abs_lt] at hd1 hc1 ⊢
        constructor
        · linarith [hd1.1]
        · linarith [hc1.2]
    | step em bs2 =>
      rw [runLoop_step_eq fuel hgs] at hconv hb
      exact ih bs2 hconv b hb

/-- On a converged run, the final working balances are exactly the starting
balances shifted by the net effect of the emitted settlements, id by id. -/
theorem runLoop_balOf (fuel : Nat) :
    ∀ bs : List Balance, (runLoop fuel bs).converged = true →
      ∀ pid, balOf pid (runLoop fuel bs).balances =
        balOf pid bs + settleDelta pid (runLoop fuel bs).settlements := by
  induction fuel with
  | zero => intro bs hconv; simp [runLoop] at hconv
  | succ fuel ih =>
    intro bs hconv pid
    cases hgs : greedyStep bs with
    | done final =>
      rw [runLoop_done_eq fuel hgs]
      show balOf pid final = balOf pid bs + settleDelta pid []
      rw [greedyStep_done_eq_sort hgs]
      rw [balOf_perm pid (sortBalances_perm bs)]
      simp [settleDelta]
    | step em bs2 =>
      rw [runLoop_step_eq fuel hgs] at hconv ⊢
      show balOf pid (runLoop fuel bs2).balances =
        balOf pid bs + settleDelta pid (em.toList ++ (runLoop fuel bs2).settlements)
      replace hconv : (runLoop fuel bs2).converged = true := hconv
      obtain ⟨d, rest, hs, hinv⟩ := greedyStep_step_inv hgs
      dsimp only at hinv
      obtain ⟨hnb, hem, hbs2⟩ := hinv
      have hperm := balOf_perm pid (sortBalances_perm bs)
      rw [hs] at hperm
      rcases lt_trichotomy 0
        (min |d.balance| ((d :: rest).getLast (List.cons_ne_nil d rest)).balance)
        with hpos | hzero | hneg
      · -- a settlement is emitted and matches the balance shift exactly
        rw [if_pos hpos] at hem
        subst hem
        have happ := balOf_applyTransfer pid (List.cons_ne_nil d rest)
          (min |d.balance| ((d :: rest).getLast (List.cons_ne_nil d rest)).balance)
        rw [← hbs2, List.head_cons] at happ
        rw [ih bs2 hconv pid, happ, ← hperm]
        simp only [Option.toList_some, List.cons_append, List.nil_append, settleDelta]
        rw [show ([] : List Settlement).append (runLoop fuel bs2).settlements =
          (runLoop fuel bs2).settlements from rfl]
        ring
      · -- zero transfer amount: nothing is emitted and nothing changes
        rw [if_neg (by rw [← hzero]; exact lt_irrefl 0)] at hem
        subst hem
        rw [← hzero, applyTransfer_zero] at hbs2
        subst hbs2
        rw [ih _ hconv pid, ← hperm]
        simp only [Option.toList_none, List.nil_append]
      · -- negative transfer amount: the run cannot have converged
        exfalso
        have hsorted := sortBalances_sorted bs
        rw [hs] at hsorted
        have := frozen_after_neg fuel hsorted hnb hneg
        rw [← hbs2] at this
        rw [hconv] at this
        cases this

/-- On a converged run with nonpositive total balance, every executed body
that emits a settlement zeroes at least one previously nonzero entry, so
the number of emitted settlements is bounded by the nonzero count. -/
theorem runLoop_count (fuel : Nat) :
    ∀ bs : List Balance, sumBal bs ≤ 0 → (runLoop fuel bs).converged = true →
      (runLoop fuel bs).settlements.length ≤ nzCount bs - 1 := by
  induction fuel with
  | zero => intro bs _ hconv; simp [runLoop] at hconv
  | succ fuel ih =>
    intro bs hsum hconv
    cases hgs : greedyStep bs with
    | done final =>
      rw [runLoop_done_eq fuel hgs]
      show ([] : List Settlement).length ≤ nzCount bs - 1
      simp
    | step em bs2 =>
      rw [runLoop_step_eq fuel hgs] at hconv ⊢
      replace hconv : (runLoop fuel bs2).converged = true := hconv
      show (em.toList ++ (runLoop fuel bs2).settlements).length ≤ nzCount bs - 1
      obtain ⟨d, rest, hs, hinv⟩ := greedyStep_step_inv hgs
      dsimp only at hinv
      obtain ⟨hnb, hem, hbs2⟩ := hinv
      have hsumsort : sumBal (d :: rest) = sumBal bs := by
        rw [← hs]
        exact sumBal_perm (sortBalances_perm bs)
      have hnzsort : nzCount (d :: rest) = nzCount bs := by
        rw [← hs]
        exact nzCount_perm (sortBalances_perm bs)
      rcases lt_trichotomy 0
        (min |d.balance| ((d :: rest).getLast (List.cons_ne_nil d rest)).balance)
        with hpos | hzero | hneg
      · rw [if_pos hpos] at hem
        subst hem
        have hcpos : 0 < ((d :: rest).getLast (List.cons_ne_nil d rest)).balance :=
          (lt_min_iff.mp hpos).2
        have hdneg : d.balance < 0 := by
          by_contra hdn
          push_neg at hdn
          have hall : ∀ b ∈ bs, 0 ≤ b.balance := fun b hb =>
            le_trans hdn (sortBalances_head_min hs b hb)
          have := sumBal_pos_of_mem hall (getLast_mem_of_sort hs) hcpos
          linarith
        have hrne : rest ≠ [] := by
          intro h0
          subst h0
          simp only [List.getLast_singleton] at hcpos
          linarith
        have hgl : (d :: rest).getLast (List.cons_ne_nil d rest) = rest.getLast hrne :=
          List.getLast_cons hrne
        have hsplit : nzCount rest = nzCount rest.dropLast +
            (if (rest.getLast hrne).balance = 0 then 0 else 1) := by
          conv_lhs => rw [← List.dropLast_append_getLast hrne]
          rw [nzCount_append]
          rw [show nzCount [rest.getLast hrne] =
            (if (rest.getLast hrne).balance = 0 then 0 else 1) + 0 from rfl]
          omega
        have hcne : (if (rest.getLast hrne).balance = 0 then 0 else 1) = 1 := by
          rw [if_neg]
          rw [← hgl]
          intro h0
          rw [h0] at hcpos
          exact lt_irrefl 0 hcpos
        have hdne : (if d.balance = 0 then 0 else 1) = 1 := by
          rw [if_neg]
          intro h0
          rw [h0] at hdneg
          exact lt_irrefl 0 hdneg
        have hnzbs : nzCount bs = nzCount rest.dropLast + 2 := by
          rw [← hnzsort,
            show nzCount (d :: rest) = (if d.balance = 0 then 0 else 1) + nzCount rest
              from rfl,
            hdne, hsplit, hcne]
          omega
        -- the transferred array
        have hbs2eq : bs2 = ⟨d.id, d.name, d.paid, d.balance +
              min |d.balance| ((d :: rest).getLast (List.cons_ne_nil d rest)).balance⟩ ::
            (rest.dropLast ++ [⟨(rest.getLast hrne).id, (rest.getLast hrne).name,
              (rest.getLast hrne).paid, (rest.getLast hrne).balance -
                min |d.balance| ((d :: rest).getLast (List.cons_ne_nil d rest)).balance⟩]) := by
          rw [hbs2, applyTransfer_eq hrne]
        have hnzbs2 : nzCount bs2 ≤ nzCount rest.dropLast + 1 := by
          rw [hbs2eq]
          rw [show nzCount (⟨d.id, d.name, d.paid, d.balance +
              min |d.balance| ((d :: rest).getLast (List.cons_ne_nil d rest)).balance⟩ ::
              (rest.dropLast ++ [⟨(rest.getLast hrne).id, (rest.getLast hrne).name,
                (rest.getLast hrne).paid, (rest.getLast hrne).balance -
                  min |d.balance| ((d :: rest).getLast (List.cons_ne_nil d rest)).balance⟩])) =
            (if d.balance +
              min |d.balance| ((d :: rest).getLast (List.cons_ne_nil d rest)).balance = 0
              then 0 else 1) + nzCount (rest.dropLast ++
                [⟨(rest.getLast hrne).id, (rest.getLast hrne).name,
                  (rest.getLast hrne).paid, (rest.getLast hrne).balance -
                    min |d.balance| ((d :: rest).getLast (List.cons_ne_nil d rest)).balance⟩])
            from rfl]
          rw [nzCount_append]
          rw [show nzCount [⟨(rest.getLast hrne).id, (rest.getLast hrne).name,
              (rest.getLast hrne).paid, (rest.getLast hrne).balance -
                min |d.balance| ((d :: rest).getLast (List.cons_ne_nil d rest)).balance⟩] =
            (if (rest.getLast hrne).balance -
              min |d.balance| ((d :: rest).getLast (List.cons_ne_nil d rest)).balance = 0
              then 0 else 1) + 0 from rfl]
          rcases min_choice |d.balance|
            ((d :: rest).getLast (List.cons_ne_nil d rest)).balance with hmc | hmc
          · rw [hmc]
            rw [abs_of_neg hdneg]
            rw [if_pos (by ring)]
            have h2 : (if (rest.getLast hrne).balance - -d.balance = 0 then 0 else 1) ≤ 1 := by
              split
              · omega
              · omega
            omega
          · rw [hmc, ← hgl]
            rw [show ((d :: rest).getLast (List.cons_ne_nil d rest)).balance -
              ((d :: rest).getLast (List.cons_ne_nil d rest)).balance = 0 from by ring]
            rw [if_pos rfl]
            have h2 : (if d.balance +
              ((d :: rest).getLast (List.cons_ne_nil d rest)).balance = 0
              then 0 else 1) ≤ 1 := by
              split
              · omega
              · omega
            omega
        have hsums2 : sumBal bs2 ≤ 0 := by
          rw [hbs2, sumBal_applyTransfer, hsumsort]
          exact hsum
        have hrec := ih bs2 hsums2 hconv
        rw [show (Option.toList (some (⟨d.id,
            ((d :: rest).getLast (List.cons_ne_nil d rest)).id,
            min |d.balance| ((d :: rest).getLast (List.cons_ne_nil d rest)).balance⟩ :
            Settlement))) = [⟨d.id, ((d :: rest).getLast (List.cons_ne_nil d rest)).id,
            min |d.balance| ((d :: rest).getLast (List.cons_ne_nil d rest)).balance⟩]
          from rfl]
        rw [List.length_append]
        simp only [List.length_singleton]
        omega
      · rw [if_neg (by rw [← hzero]; exact lt_irrefl 0)] at hem
        subst hem
        rw [← hzero, applyTransfer_zero] at hbs2
        subst hbs2
        simp only [Option.toList_none, List.nil_append]
        have := ih (d :: rest) (by rw [hsumsort]; exact hsum) hconv
        omega
      · exfalso
        have hsorted := sortBalances_sorted bs
        rw [hs] at hsorted
        have hfr := frozen_after_neg fuel hsorted hnb hneg
        rw [← hbs2, hconv] at hfr
        cases hfr

/-- Every emitted settlement carries the ids of two entries of the working
array it was emitted from, hence ids of the starting array. -/
theorem runLoop_settle_ids (fuel : Nat) :
    ∀ (bs : List Balance) (s : Settlement), s ∈ (runLoop fuel bs).settlements →
      s.fromId ∈ bs.map Balance.id ∧ s.toId ∈ bs.map Balance.id := by
  induction fuel with
  | zero => intro bs s hsm; simp [runLoop] at hsm
  | succ fuel ih =>
    intro bs s hsm
    cases hgs : greedyStep bs with
    | done final =>
      rw [runLoop_done_eq fuel hgs] at hsm
      cases hsm
    | step em bs2 =>
      rw [runLoop_step_eq fuel hgs] at hsm
      replace hsm : s ∈ em.toList ++ (runLoop fuel bs2).settlements := hsm
      obtain ⟨d, rest, hs, hinv⟩ := greedyStep_step_inv hgs
      dsimp only at hinv
      obtain ⟨hnb, hem, hbs2⟩ := hinv
      have hpermid : List.Perm ((d :: rest).map Balance.id) (bs.map Balance.id) := by
        rw [← hs]
        exact (sortBalances_perm bs).map _
      rcases List.mem_append.mp hsm with h1 | h1
      · cases em with
        | none => cases h1
        | some s0 =>
          have hss0 : s = s0 := by
            simpa using h1
          subst hss0
          by_cases hpos : 0 <
            min |d.balance| ((d :: rest).getLast (List.cons_ne_nil d rest)).balance
          · rw [if_pos hpos] at hem
            cases hem
            constructor
            · exact hpermid.mem_iff.mp (by
                simp only [List.map_cons]
                exact List.mem_cons_self _ _)
            · exact hpermid.mem_iff.mp (by
                show ((d :: rest).getLast (List.cons_ne_nil d rest)).id ∈
                  (d :: rest).map Balance.id
                exact List.mem_map_of_mem Balance.id (List.getLast_mem _))
          · rw [if_neg hpos] at hem
            cases hem
      · have hrec := ih bs2 s h1
        have hmapid : bs2.map Balance.id = (d :: rest).map Balance.id := by
          rw [hbs2, map_id_applyTransfer]
        rw [hmapid] at hrec
        exact ⟨hpermid.mem_iff.mp hrec.1, hpermid.mem_iff.mp hrec.2⟩

/-- Every emitted settlement has a strictly positive amount: the push into
the results list is guarded by the amount test. -/
theorem runLoop_amount_pos (fuel : Nat) :
    ∀ (bs : List Balance) (s : Settlement), s ∈ (runLoop fuel bs).settlements →
      0 < s.amount := by
  induction fuel with
  | zero => intro bs s hsm; simp [runLoop] at hsm
  | succ fuel ih =>
    intro bs s hsm
    cases hgs : greedyStep bs with
    | done final =>
      rw [runLoop_done_eq fuel hgs] at hsm
      cases hsm
    | step em bs2 =>
      rw [runLoop_step_eq fuel hgs] at hsm
      replace hsm : s ∈ em.toList ++ (runLoop fuel bs2).settlements := hsm
      obtain ⟨d, rest, hs, hinv⟩ := greedyStep_step_inv hgs
      dsimp only at hinv
      obtain ⟨hnb, hem, hbs2⟩ := hinv
      rcases List.mem_append.mp hsm with h1 | h1
      · cases em with
        | none => cases h1
        | some s0 =>
          have hss0 : s = s0 := by
            simpa using h1
          subst hss0
          by_cases hpos : 0 <
            min |d.balance| ((d :: rest).getLast (List.cons_ne_nil d rest)).balance
          · rw [if_pos hpos] at hem
            cases hem
            exact hpos
          · rw [if_neg hpos] at hem
            cases hem
      · exact ih bs2 s h1

/-- With pairwise distinct ids and nonpositive total balance, every emitted
settlement moves money between two distinct entries. -/
theorem runLoop_from_ne_to (fuel : Nat) :
    ∀ bs : List Balance, (bs.map Balance.id).Nodup → sumBal bs ≤ 0 →
      ∀ s ∈ (runLoop fuel bs).settlements, s.fromId ≠ s.toId := by
  induction fuel with
  | zero => intro bs _ _ s hsm; simp [runLoop] at hsm
  | succ fuel ih =>
    intro bs hnd hsum s hsm
    cases hgs : greedyStep bs with
    | done final =>
      rw [runLoop_done_eq fuel hgs] at hsm
      cases hsm
    | step em bs2 =>
      rw [runLoop_step_eq fuel hgs] at hsm
      replace hsm : s ∈ em.toList ++ (runLoop fuel bs2).settlements := hsm
      obtain ⟨d, rest, hs, hinv⟩ := greedyStep_step_inv hgs
      dsimp only at hinv
      obtain ⟨hnb, hem, hbs2⟩ := hinv
      have hndsort : ((d :: rest).map Balance.id).Nodup := by
        refine (List.Perm.nodup_iff ?_).mpr hnd
        rw [← hs]
        exact (sortBalances_perm bs).map _
      have hsumsort : sumBal (d :: rest) = sumBal bs := by
        rw [← hs]
        exact sumBal_perm (sortBalances_perm bs)
      rcases List.mem_append.mp hsm with h1 | h1
      · cases em with
        | none => cases h1
        | some s0 =>
          have hss0 : s = s0 := by
            simpa using h1
          subst hss0
          by_cases hpos : 0 <
            min |d.balance| ((d :: rest).getLast (List.cons_ne_nil d rest)).balance
          · rw [if_pos hpos] at hem
            cases hem
            have hcpos : 0 < ((d :: rest).getLast (List.cons_ne_nil d rest)).balance :=
              (lt_min_iff.mp hpos).2
            have hdneg : d.balance < 0 := by
              by_contra hdn
              push_neg at hdn
              have hall : ∀ b ∈ bs, 0 ≤ b.balance := fun b hb =>
                le_trans hdn (sortBalances_head_min hs b hb)
              have := sumBal_pos_of_mem hall (getLast_mem_of_sort hs) hcpos
              linarith
            have hrne : rest ≠ [] := by
              intro h0
              subst h0
              simp only [List.getLast_singleton] at hcpos
              linarith
            have hgl : (d :: rest).getLast (List.cons_ne_nil d rest) =
                rest.getLast hrne := List.getLast_cons hrne
            show d.id ≠ ((d :: rest).getLast (List.cons_ne_nil d rest)).id
            rw [hgl]
            simp only [List.map_cons, List.nodup_cons] at hndsort
            intro heq
            exact hndsort.1 (heq ▸ List.mem_map_of_mem Balance.id (List.getLast_mem hrne))
          · rw [if_neg hpos] at hem
            cases hem
      · refine ih bs2 ?_ ?_ s h1
        · rw [hbs2, map_id_applyTransfer]
          exact hndsort
        · rw [hbs2, sumBal_applyTransfer, hsumsort]
          exact hsum

/-- A one-entry working array with nonpositive balance never emits: the
transfer amount is the balance itself, which fails the positivity guard,
and the aliased double update leaves the entry unchanged. -/
theorem runLoop_singleton (fuel : Nat) :
    ∀ b : Balance, b.balance ≤ 0 → (runLoop fuel [b]).settlements = [] := by
  induction fuel with
  | zero => intro b _; rfl
  | succ fuel ih =>
    intro b hb
    by_cases hbr : |b.balance| < 1 ∧ |b.balance| < 1
    · have hgs : greedyStep [b] = .done [b] := by
        show (if |b.balance| < 1 ∧ |b.balance| < 1 then StepResult.done [b]
          else StepResult.step
            (if 0 < min |b.balance| b.balance
              then some ⟨b.id, b.id, min |b.balance| b.balance⟩ else none)
            (applyTransfer (min |b.balance| b.balance) [b])) = StepResult.done [b]
        rw [if_pos hbr]
      rw [runLoop_done_eq fuel hgs]
    · have hnlt : ¬0 < min |b.balance| b.balance := by
        intro hlt
        exact absurd (lt_of_lt_of_le hlt (min_le_right _ _)) (not_lt.mpr hb)
      have hgs : greedyStep [b] = .step none [b] := by
        show (if |b.balance| < 1 ∧ |b.balance| < 1 then StepResult.done [b]
          else StepResult.step
            (if 0 < min |b.balance| b.balance
              then some ⟨b.id, b.id, min |b.balance| b.balance⟩ else none)
            (applyTransfer (min |b.balance| b.balance) [b])) = StepResult.step none [b]
        rw [if_neg hbr, if_neg hnlt]
        rw [show applyTransfer (min |b.balance| b.balance) [b] =
          [⟨b.id, b.name, b.paid,
            b.balance + min |b.balance| b.balance - min |b.balance| b.balance⟩] from rfl]
        rw [show b.balance + min |b.balance| b.balance - min |b.balance| b.balance =
          b.balance from by ring]
      rw [runLoop_step_eq fuel hgs]
      show Option.toList none ++ (runLoop fuel [b]).settlements = []
      rw [ih b hb]
      rfl

/-! ### Facts about the initial balances -/

theorem sumPaid_nil : ∀ ps : List Participant, sumPaid [] ps = 0 := by
  intro ps
  induction ps with
  | nil => rfl
  | cons p t ih =>
    show paidOf [] p.id + sumPaid [] t = 0
    rw [paidOf_nil, ih]
    ring

theorem sumBal_map_balances (es : List Expense) (q : ℚ) :
    ∀ ps : List Participant,
      sumBal (ps.map (fun p => ⟨p.id, p.name, paidOf es p.id, paidOf es p.id - q⟩)) =
        sumPaid es ps - ps.length * q := by
  intro ps
  induction ps with
  | nil => simp [sumBal, sumPaid]
  | cons p t ih =>
    simp only [List.map_cons, sumBal, sumPaid, ih, List.length_cons]
    push_cast
    ring

theorem sumBal_initialBalances {ps : List Participant} (hne : ps ≠ []) (es : List Expense) :
    sumBal (initialBalances ps es) = sumPaid es ps - totalSpent es := by
  unfold initialBalances averageSpend
  rw [sumBal_map_balances]
  have hlen : (ps.length : ℚ) ≠ 0 :=
    Nat.cast_ne_zero.mpr (fun h0 => hne (List.length_eq_zero.mp h0))
  rw [mul_comm, div_mul_cancel₀ _ hlen]

theorem sum_ite_id (x : ℚ) (pid : String) :
    ∀ ps : List Participant, (ps.map Participant.id).Nodup →
      (ps.map (fun p => if pid = p.id then x else 0)).sum =
        if pid ∈ ps.map Participant.id then x else 0 := by
  intro ps
  induction ps with
  | nil => intro _; simp
  | cons p t ih =>
    intro hnd
    simp only [List.map_cons, List.sum_cons, List.nodup_cons] at hnd ⊢
    by_cases hp : pid = p.id
    · rw [if_pos hp]
      have hnot : pid ∉ t.map Participant.id := by rw [hp]; exact hnd.1
      rw [ih hnd.2, if_neg hnot, if_pos (by simp [hp])]
      ring
    · rw [if_neg hp, ih hnd.2]
      by_cases hm : pid ∈ t.map Participant.id
      · rw [if_pos hm, if_pos (by simp [hm])]
        ring
      · rw [if_neg hm, if_neg (by simp [hp, hm])]
        ring

theorem sumPaid_expense_cons (e : Expense) (es : List Expense) (ps : List Participant) :
    sumPaid (e :: es) ps =
      (ps.map (fun p => if e.payerId = p.id then e.amount else 0)).sum + sumPaid es ps := by
  induction ps with
  | nil => simp [sumPaid]
  | cons p t ih =>
    show paidOf (e :: es) p.id + sumPaid (e :: es) t = _
    rw [paidOf_cons, ih]
    simp only [List.map_cons, List.sum_cons, sumPaid]
    ring

theorem totalSpent_cons (e : Expense) (es : List Expense) :
    totalSpent (e :: es) = e.amount + totalSpent es := sumAmounts_cons e es

theorem sumPaid_le_totalSpent {ps : List Participant}
    (hnd : (ps.map Participant.id).Nodup) :
    ∀ es : List Expense, (∀ e ∈ es, 0 ≤ e.amount) → sumPaid es ps ≤ totalSpent es := by
  intro es
  induction es with
  | nil =>
    intro _
    rw [sumPaid_nil]
    show (0 : ℚ) ≤ 0
    exact le_refl 0
  | cons e es ih =>
    intro hpos
    rw [sumPaid_expense_cons, totalSpent_cons, sum_ite_id _ _ ps hnd]
    have h1 : sumPaid es ps ≤ totalSpent es := ih (fun x hx => hpos x (by simp [hx]))
    have h2 : (if e.payerId ∈ ps.map Participant.id then e.amount else 0) ≤ e.amount := by
      split
      · exact le_refl _
      · exact hpos e (by simp)
    linarith

theorem sumPaid_eq_totalSpent {ps : List Participant}
    (hnd : (ps.map Participant.id).Nodup) :
    ∀ es : List Expense, (∀ e ∈ es, e.payerId ∈ ps.map Participant.id) →
      sumPaid es ps = totalSpent es := by
  intro es
  induction es with
  | nil =>
    intro _
    rw [sumPaid_nil]
    rfl
  | cons e es ih =>
    intro hmem
    rw [sumPaid_expense_cons, totalSpent_cons, sum_ite_id _ _ ps hnd]
    rw [if_pos (hmem e (by simp))]
    rw [ih (fun x hx => hmem x (by simp [hx]))]

theorem map_id_initialBalances (ps : List Participant) (es : List Expense) :
    (initialBalances ps es).map Balance.id = ps.map Participant.id := by
  unfold initialBalances
  rw [List.map_map]
  rfl

theorem balOf_not_mem {pid : String} :
    ∀ {l : List Balance}, pid ∉ l.map Balance.id → balOf pid l = 0 := by
  intro l
  induction l with
  | nil => intro _; rfl
  | cons b t ih =>
    intro h
    simp only [List.map_cons, List.mem_cons] at h
    push_neg at h
    simp only [balOf]
    rw [if_neg (fun he => h.1 he.symm), ih h.2]
    ring

theorem balOf_map_general (es : List Expense) (q : ℚ) {pid : String} :
    ∀ {ps : List Participant}, (ps.map Participant.id).Nodup →
      pid ∈ ps.map Participant.id →
      balOf pid (ps.map (fun p => ⟨p.id, p.name, paidOf es p.id, paidOf es p.id - q⟩)) =
        paidOf es pid - q := by
  intro ps
  induction ps with
  | nil => intro _ h; cases h
  | cons p t ih =>
    intro hnd hmem
    simp only [List.map_cons, List.nodup_cons] at hnd
    simp only [List.map_cons, List.mem_cons] at hmem
    simp only [List.map_cons, balOf]
    by_cases hp : p.id = pid
    · rw [if_pos hp]
      have hnot : pid ∉ (t.map
          (fun p => (⟨p.id, p.name, paidOf es p.id, paidOf es p.id - q⟩ : Balance))).map
            Balance.id := by
        rw [List.map_map]
        rw [show (Balance.id ∘ fun p : Participant =>
          (⟨p.id, p.name, paidOf es p.id, paidOf es p.id - q⟩ : Balance)) =
            Participant.id from rfl]
        rw [← hp]
        exact hnd.1
      rw [balOf_not_mem hnot, hp]
      ring
    · rw [if_neg hp, ih hnd.2 (hmem.resolve_left (fun h => hp h.symm))]
      ring

theorem balOf_initialBalances {ps : List Participant}
    (hnd : (ps.map Participant.id).Nodup) {p : Participant} (hp : p ∈ ps)
    (es : List Expense) :
    balOf p.id (initialBalances ps es) = paidOf es p.id - averageSpend ps es := by
  unfold initialBalances
  exact balOf_map_general es _ hnd (List.mem_map_of_mem Participant.id hp)

theorem balOf_band {pid : String} :
    ∀ {l : List Balance}, (l.map Balance.id).Nodup → pid ∈ l.map Balance.id →
      (∀ b ∈ l, |b.balance| < 1) → |balOf pid l| < 1 := by
  intro l
  induction l with
  | nil => intro _ h _; cases h
  | cons b t ih =>
    intro hnd hmem hband
    simp only [List.map_cons, List.nodup_cons] at hnd
    simp only [List.map_cons, List.mem_cons] at hmem
    simp only [balOf]
    by_cases hb : b.id = pid
    · rw [if_pos hb, balOf_not_mem (by rw [← hb]; exact hnd.1)]
      simpa using hband b (by simp)
    · rw [if_neg hb]
      have := ih hnd.2 (hmem.resolve_left (fun h => hb h.symm))
        (fun x hx => hband x (by simp [hx]))
      simpa using this

theorem sumBal_initialBalances_nonpos {ps : List Participant}
    (hnd : (ps.map Participant.id).Nodup) (es : List Expense)
    (hpos : ∀ e ∈ es, 0 ≤ e.amount) :
    sumBal (initialBalances ps es) ≤ 0 := by
  by_cases hne : ps = []
  · subst hne
    show (0 : ℚ) ≤ 0
    exact le_refl 0
  · rw [sumBal_initialBalances hne]
    have := sumPaid_le_totalSpent hnd es hpos
    linarith

theorem runLoop_map_id (fuel : Nat) :
    ∀ bs : List Balance,
      List.Perm ((runLoop fuel bs).balances.map Balance.id) (bs.map Balance.id) := by
  induction fuel with
  | zero => intro bs; exact List.Perm.refl _
  | succ fuel ih =>
    intro bs
    cases hgs : greedyStep bs with
    | done final =>
      rw [runLoop_done_eq fuel hgs]
      show List.Perm (final.map Balance.id) (bs.map Balance.id)
      rw [greedyStep_done_eq_sort hgs]
      exact (sortBalances_perm bs).map _
    | step em bs2 =>
      rw [runLoop_step_eq fuel hgs]
      show List.Perm ((runLoop fuel bs2).balances.map Balance.id) (bs.map Balance.id)
      refine (ih bs2).trans ?_
      obtain ⟨d, rest, hs, hinv⟩ := greedyStep_step_inv hgs
      dsimp only at hinv
      obtain ⟨_, _, hbs2⟩ := hinv
      rw [hbs2, map_id_applyTransfer, ← hs]
      exact (sortBalances_perm bs).map _

/-! ### The claims -/

/-- C9: the greedy loop body executes at most 100 times on every input
(the fuel of `runLoop` is the remaining iteration budget), so the
computation terminates on all inputs, including those whose balances never
enter the tolerance band. -/
theorem iteration_cap (ps : List Participant) (es : List Expense) :
    (settleRun ps es).iters ≤ 100 :=
  runLoop_iters_le 100 (initialBalances ps es)

/-- C8: with an empty participants list the computation returns the empty
list immediately; with an empty expenses list every initial balance is
zero and the result is again the empty list. -/
theorem empty_inputs (ps : List Participant) (es : List Expense) :
    computeSettlements [] es = [] ∧
      computeSettlements ps [] = [] ∧
      ∀ b ∈ initialBalances ps [], b.balance = 0 := by
  have hzero : ∀ b ∈ initialBalances ps [], b.balance = 0 := by
    intro b hb
    unfold initialBalances at hb
    obtain ⟨p, _, rfl⟩ := List.mem_map.mp hb
    show paidOf [] p.id - averageSpend ps [] = 0
    rw [paidOf_nil]
    unfold averageSpend totalSpent sumAmounts
    simp
  refine ⟨rfl, ?_, hzero⟩
  by_cases hne : ps = []
  · subst hne
    rfl
  · unfold computeSettlements
    rw [if_neg (by simp [hne])]
    unfold settleRun
    cases hs : sortBalances (initialBalances ps []) with
    | nil =>
      exfalso
      refine sortBalances_ne_nil ?_ hs
      intro h0
      exact hne (List.map_eq_nil_iff.mp h0)
    | cons d rest =>
      have hd : d.balance = 0 :=
        hzero d (mem_sortBalances.mp (by rw [hs]; exact List.mem_cons_self d rest))
      have hc : ((d :: rest).getLast (List.cons_ne_nil d rest)).balance = 0 :=
        hzero _ (getLast_mem_of_sort hs)
      have hgs : greedyStep (initialBalances ps []) = .done (d :: rest) := by
        unfold greedyStep
        rw [hs]
        dsimp only
        rw [if_pos ⟨by rw [hd]; norm_num, by rw [hc]; norm_num⟩]
      rw [show (100 : Nat) = 99 + 1 from rfl, runLoop_done_eq 99 hgs]

/-- C2: each loop iteration sorts the working balances ascending (a stable
sort, hence a permutation with the head a minimal balance and the last
element a maximal one), stops exactly when both extremes are inside the
tolerance band, and otherwise computes
`transferAmount = min(|debtor.balance|, creditor.balance)`, emits the
settlement `{fromId: debtor.id, toId: creditor.id, amount: transferAmount}`
exactly when `transferAmount > 0`, and then adds the amount to the debtor
entry and subtracts it from the creditor entry; on a one-entry array both
updates hit the same entry. -/
theorem greedy_iteration_spec (bs : List Balance) (hne : bs ≠ []) :
    List.Perm (sortBalances bs) bs ∧
    List.Sorted balLE (sortBalances bs) ∧
    ∃ (d : Balance) (rest : List Balance), sortBalances bs = d :: rest ∧
      (let c := (d :: rest).getLast (List.cons_ne_nil d rest)
       let amount := min |d.balance| c.balance
       (∀ b ∈ bs, d.balance ≤ b.balance) ∧
       (∀ b ∈ bs, b.balance ≤ c.balance) ∧
       (|d.balance| < 1 ∧ |c.balance| < 1 → greedyStep bs = .done (d :: rest)) ∧
       (¬(|d.balance| < 1 ∧ |c.balance| < 1) →
         greedyStep bs =
           .step (if 0 < amount then some ⟨d.id, c.id, amount⟩ else none)
             (applyTransfer amount (d :: rest))) ∧
       (rest = [] → applyTransfer amount (d :: rest) =
         [⟨d.id, d.name, d.paid, d.balance + amount - amount⟩]) ∧
       ∀ hrne : rest ≠ [], applyTransfer amount (d :: rest) =
         ⟨d.id, d.name, d.paid, d.balance + amount⟩ ::
           (rest.dropLast ++ [⟨(rest.getLast hrne).id, (rest.getLast hrne).name,
             (rest.getLast hrne).paid, (rest.getLast hrne).balance - amount⟩])) := by
  refine ⟨sortBalances_perm bs, sortBalances_sorted bs, ?_⟩
  cases hs : sortBalances bs with
  | nil => exact absurd hs (sortBalances_ne_nil hne)
  | cons d rest =>
    refine ⟨d, rest, rfl, sortBalances_head_min hs, sortBalances_getLast_max hs,
      ?_, ?_, ?_, ?_⟩
    · intro hbr
      unfold greedyStep
      rw [hs]
      dsimp only
      rw [if_pos hbr]
    · intro hbr
      unfold greedyStep
      rw [hs]
      dsimp only
      rw [if_neg hbr]
    · intro h0
      subst h0
      rfl
    · intro hrne
      exact applyTransfer_eq hrne _

theorem greedy_iteration_spec_witness :
    List.Perm (sortBalances [⟨"a", "A", (3 : ℚ), 3⟩]) [⟨"a", "A", (3 : ℚ), 3⟩] :=
  (greedy_iteration_spec [⟨"a", "A", (3 : ℚ), 3⟩] (by simp)).1

/-- C1 (amended): on inputs with distinct participant ids for which the loop reaches
its termination test within the cap, applying every emitted settlement to
the initial balances (adding the amount at its fromId and subtracting it at
its toId) puts every participant's final balance strictly inside the
tolerance band around zero. -/
theorem settlement_correctness (ps : List Participant) (es : List Expense)
    (hnd : (ps.map Participant.id).Nodup)
    (hconv : (settleRun ps es).converged = true) :
    ∀ p ∈ ps,
      |(paidOf es p.id - averageSpend ps es) +
        settleDelta p.id (computeSettlements ps es)| < 1 := by
  intro p hp
  have hne : ps ≠ [] := by
    intro h0
    subst h0
    cases hp
  have hcs : computeSettlements ps es = (settleRun ps es).settlements := by
    unfold computeSettlements
    rw [if_neg (by simp [hne])]
  rw [hcs]
  unfold settleRun at hconv ⊢
  have hbal := runLoop_balOf 100 (initialBalances ps es) hconv p.id
  rw [balOf_initialBalances hnd hp es] at hbal
  have hband := runLoop_band 100 (initialBalances ps es) hconv
  have hperm := runLoop_map_id 100 (initialBalances ps es)
  rw [map_id_initialBalances] at hperm
  have hndfin : ((runLoop 100 (initialBalances ps es)).balances.map Balance.id).Nodup :=
    (List.Perm.nodup_iff hperm).mpr hnd
  have hmem : p.id ∈ (runLoop 100 (initialBalances ps es)).balances.map Balance.id :=
    hperm.mem_iff.mpr (List.mem_map_of_mem Participant.id hp)
  have habs := balOf_band hndfin hmem (fun b hb => hband b hb)
  rw [hbal] at habs
  exact habs

theorem settlement_correctness_witness :
    |(paidOf [⟨"e1", "a", 100, none⟩] "a" -
        averageSpend [⟨"a", "A"⟩, ⟨"b", "B"⟩] [⟨"e1", "a", 100, none⟩]) +
      settleDelta "a" (computeSettlements [⟨"a", "A"⟩, ⟨"b", "B"⟩]
        [⟨"e1", "a", 100, none⟩])| < 1 := by
  have h0 : initialBalances [⟨"a", "A"⟩, ⟨"b", "B"⟩] [⟨"e1", "a", 100, none⟩] =
      [⟨"a", "A", 100, 50⟩, ⟨"b", "B", 0, -50⟩] := by
    norm_num [initialBalances, paidOf, sumAmounts, totalSpent, averageSpend, List.filter]
    decide
  have h1 : greedyStep [⟨"a", "A", 100, 50⟩, ⟨"b", "B", 0, -50⟩] =
      .step (some ⟨"b", "a", 50⟩) [⟨"b", "B", 0, 0⟩, ⟨"a", "A", 100, 0⟩] := by
    norm_num [greedyStep, sortBalances, balLE, applyTransfer, addLast, List.getLast, abs]
  have h2 : greedyStep [⟨"b", "B", 0, 0⟩, ⟨"a", "A", 100, 0⟩] =
      .done [⟨"b", "B", 0, 0⟩, ⟨"a", "A", 100, 0⟩] := by
    norm_num [greedyStep, sortBalances, balLE, List.getLast, abs]
  have hconv : (settleRun [⟨"a", "A"⟩, ⟨"b", "B"⟩]
      [⟨"e1", "a", 100, none⟩]).converged = true := by
    unfold settleRun
    rw [h0, show (100 : Nat) = 98 + 1 + 1 from rfl, runLoop_step_eq _ h1,
      runLoop_done_eq _ h2]
  exact settlement_correctness [⟨"a", "A"⟩, ⟨"b", "B"⟩] [⟨"e1", "a", 100, none⟩]
    (by decide) hconv ⟨"a", "A"⟩ (by decide)

/-- C1 counterexample: with two participants sharing the id "a", the run
converges within the cap, but replaying the emitted settlements on the
initial balances leaves the id "a" at exactly 1, outside the open
tolerance band: both same-id participants are credited with the debts that
the two distinct array entries paid off separately. -/
theorem settlement_correctness_counterexample :
    (settleRun [⟨"a", "A"⟩, ⟨"a", "B"⟩, ⟨"b", "C"⟩]
      [⟨"e1", "b", 3, none⟩]).converged = true ∧
    ¬|(paidOf [⟨"e1", "b", 3, none⟩] "a" -
        averageSpend [⟨"a", "A"⟩, ⟨"a", "B"⟩, ⟨"b", "C"⟩] [⟨"e1", "b", 3, none⟩]) +
      settleDelta "a" (computeSettlements [⟨"a", "A"⟩, ⟨"a", "B"⟩, ⟨"b", "C"⟩]
        [⟨"e1", "b", 3, none⟩])| < 1 := by
  have h0 : initialBalances [⟨"a", "A"⟩, ⟨"a", "B"⟩, ⟨"b", "C"⟩] [⟨"e1", "b", 3, none⟩] =
      [⟨"a", "A", 0, -1⟩, ⟨"a", "B", 0, -1⟩, ⟨"b", "C", 3, 2⟩] := by
    norm_num [initialBalances, paidOf, sumAmounts, totalSpent, averageSpend, List.filter,
      show (("b" == "a") : Bool) = false from rfl, show (("b" == "b") : Bool) = true from rfl]
  have h1 : greedyStep [⟨"a", "A", 0, -1⟩, ⟨"a", "B", 0, -1⟩, ⟨"b", "C", 3, 2⟩] =
      .step (some ⟨"a", "b", 1⟩)
        [⟨"a", "A", 0, 0⟩, ⟨"a", "B", 0, -1⟩, ⟨"b", "C", 3, 1⟩] := by
    norm_num [greedyStep, sortBalances, balLE, applyTransfer, addLast, List.getLast, abs]
  have h2 : greedyStep [⟨"a", "A", 0, 0⟩, ⟨"a", "B", 0, -1⟩, ⟨"b", "C", 3, 1⟩] =
      .step (some ⟨"a", "b", 1⟩)
        [⟨"a", "B", 0, 0⟩, ⟨"a", "A", 0, 0⟩, ⟨"b", "C", 3, 0⟩] := by
    norm_num [greedyStep, sortBalances, balLE, applyTransfer, addLast, List.getLast, abs]
  have h3 : greedyStep [⟨"a", "B", 0, 0⟩, ⟨"a", "A", 0, 0⟩, ⟨"b", "C", 3, 0⟩] =
      .done [⟨"a", "B", 0, 0⟩, ⟨"a", "A", 0, 0⟩, ⟨"b", "C", 3, 0⟩] := by
    norm_num [greedyStep, sortBalances, balLE, List.getLast, abs]
  have hrun : runLoop 100 [⟨"a", "A", 0, -1⟩, ⟨"a", "B", 0, -1⟩, ⟨"b", "C", 3, 2⟩] =
      ⟨[⟨"a", "b", 1⟩, ⟨"a", "b", 1⟩],
        [⟨"a", "B", 0, 0⟩, ⟨"a", "A", 0, 0⟩, ⟨"b", "C", 3, 0⟩], true, 2⟩ := by
    rw [show (100 : Nat) = 97 + 1 + 1 + 1 from rfl, runLoop_step_eq _ h1,
      runLoop_step_eq _ h2, runLoop_done_eq _ h3]
    rfl
  constructor
  · unfold settleRun
    rw [h0, hrun]
  · have hcs : computeSettlements [⟨"a", "A"⟩, ⟨"a", "B"⟩, ⟨"b", "C"⟩]
        [⟨"e1", "b", 3, none⟩] = [⟨"a", "b", 1⟩, ⟨"a", "b", 1⟩] := by
      unfold computeSettlements
      rw [if_neg (by simp)]
      unfold settleRun
      rw [h0, hrun]
    rw [hcs]
    norm_num [settleDelta, paidOf, sumAmounts, totalSpent, averageSpend, List.filter,
      show (("b" == "a") : Bool) = false from rfl,
      if_neg (show ¬("b" : String) = "a" from by decide),
      if_pos (show ("a" : String) = "a" from rfl)]

/-- C5 (amended): every settlement in the returned list has a strictly
positive amount; and whenever the working array a loop body runs on has a
nonpositive balance sum (which holds throughout for inputs with
nonnegative expense amounts and distinct participant ids), an emitted
settlement names a debtor entry with strictly negative working balance and
a creditor entry with strictly positive working balance at the moment of
emission. -/
theorem settlement_signs :
    (∀ (ps : List Participant) (es : List Expense),
      ∀ s ∈ computeSettlements ps es, 0 < s.amount) ∧
    (∀ bs : List Balance, sumBal bs ≤ 0 →
      ∀ (s : Settlement) (bs2 : List Balance), greedyStep bs = .step (some s) bs2 →
        0 < s.amount ∧
          (∃ db ∈ bs, db.id = s.fromId ∧ db.balance < 0) ∧
          (∃ cb ∈ bs, cb.id = s.toId ∧ 0 < cb.balance)) := by
  constructor
  · intro ps es s hsm
    unfold computeSettlements at hsm
    split at hsm
    · cases hsm
    · exact runLoop_amount_pos 100 _ s hsm
  · intro bs hsum s bs2 hgs
    obtain ⟨d, rest, hs, hinv⟩ := greedyStep_step_inv hgs
    dsimp only at hinv
    obtain ⟨hnb, hem, hbs2⟩ := hinv
    by_cases hpos : 0 <
        min |d.balance| ((d :: rest).getLast (List.cons_ne_nil d rest)).balance
    · rw [if_pos hpos] at hem
      cases hem
      have hcpos : 0 < ((d :: rest).getLast (List.cons_ne_nil d rest)).balance :=
        (lt_min_iff.mp hpos).2
      have hdneg : d.balance < 0 := by
        by_contra hdn
        push_neg at hdn
        have hall : ∀ b ∈ bs, 0 ≤ b.balance := fun b hb =>
          le_trans hdn (sortBalances_head_min hs b hb)
        have := sumBal_pos_of_mem hall (getLast_mem_of_sort hs) hcpos
        linarith
      exact ⟨hpos, ⟨d, head_mem_of_sort hs, rfl, hdneg⟩,
        ⟨(d :: rest).getLast (List.cons_ne_nil d rest), getLast_mem_of_sort hs,
          rfl, hcpos⟩⟩
    · rw [if_neg hpos] at hem
      cases hem

theorem settlement_signs_witness :
    0 < (⟨"b", "a", (50 : ℚ)⟩ : Settlement).amount := by
  have h0 : initialBalances [⟨"a", "A"⟩, ⟨"b", "B"⟩] [⟨"e1", "a", 100, none⟩] =
      [⟨"a", "A", 100, 50⟩, ⟨"b", "B", 0, -50⟩] := by
    norm_num [initialBalances, paidOf, sumAmounts, totalSpent, averageSpend, List.filter]
    decide
  have h1 : greedyStep [⟨"a", "A", 100, 50⟩, ⟨"b", "B", 0, -50⟩] =
      .step (some ⟨"b", "a", 50⟩) [⟨"b", "B", 0, 0⟩, ⟨"a", "A", 100, 0⟩] := by
    norm_num [greedyStep, sortBalances, balLE, applyTransfer, addLast, List.getLast, abs]
  have hmem : (⟨"b", "a", (50 : ℚ)⟩ : Settlement) ∈
      computeSettlements [⟨"a", "A"⟩, ⟨"b", "B"⟩] [⟨"e1", "a", 100, none⟩] := by
    unfold computeSettlements
    rw [if_neg (by simp)]
    unfold settleRun
    rw [h0, show (100 : Nat) = 98 + 1 + 1 from rfl, runLoop_step_eq _ h1]
    exact List.mem_append_left _ (by simp)
  exact settlement_signs.1 [⟨"a", "A"⟩, ⟨"b", "B"⟩] [⟨"e1", "a", 100, none⟩]
    ⟨"b", "a", 50⟩ hmem

/-- C5 counterexample: with two participants sharing one id, the first loop
body emits the settlement `{fromId := "a", toId := "a", amount := 50}` from
a working array all of whose balances are strictly positive, and that
settlement is in the returned list; so the fromId of an emitted settlement
need not belong to any participant with negative working balance at the
moment of emission. -/
theorem settlement_sign_counterexample :
    greedyStep (initialBalances [⟨"a", "A"⟩, ⟨"a", "B"⟩] [⟨"e1", "a", 100, none⟩]) =
      .step (some ⟨"a", "a", 50⟩) [⟨"a", "A", 100, 100⟩, ⟨"a", "B", 100, 0⟩] ∧
    (⟨"a", "a", (50 : ℚ)⟩ : Settlement) ∈
      computeSettlements [⟨"a", "A"⟩, ⟨"a", "B"⟩] [⟨"e1", "a", 100, none⟩] ∧
    ∀ b ∈ initialBalances [⟨"a", "A"⟩, ⟨"a", "B"⟩] [⟨"e1", "a", 100, none⟩],
      0 < b.balance := by
  have h0 : initialBalances [⟨"a", "A"⟩, ⟨"a", "B"⟩] [⟨"e1", "a", 100, none⟩] =
      [⟨"a", "A", 100, 50⟩, ⟨"a", "B", 100, 50⟩] := by
    norm_num [initialBalances, paidOf, sumAmounts, totalSpent, averageSpend, List.filter]
  have h1 : greedyStep [⟨"a", "A", 100, 50⟩, ⟨"a", "B", 100, 50⟩] =
      .step (some ⟨"a", "a", 50⟩) [⟨"a", "A", 100, 100⟩, ⟨"a", "B", 100, 0⟩] := by
    norm_num [greedyStep, sortBalances, balLE, applyTransfer, addLast, List.getLast, abs]
  refine ⟨by rw [h0]; exact h1, ?_, ?_⟩
  · unfold computeSettlements
    rw [if_neg (by simp)]
    unfold settleRun
    rw [h0, show (100 : Nat) = 99 + 1 from rfl, runLoop_step_eq _ h1]
    exact List.mem_append_left _ (by simp)
  · intro b hb
    rw [h0] at hb
    rcases List.mem_cons.mp hb with rfl | hb2
    · norm_num
    · rcases List.mem_singleton.mp hb2 with rfl
      norm_num

/-- C3 (amended): for inputs with pairwise distinct participant ids and
nonnegative expense amounts on which the loop reaches its termination test
within the cap, the settlement list has at most participantCount - 1
entries. -/
theorem bounded_output_of_nonneg (ps : List Participant) (es : List Expense)
    (hnd : (ps.map Participant.id).Nodup) (hpos : ∀ e ∈ es, 0 ≤ e.amount)
    (hconv : (settleRun ps es).converged = true) :
    (computeSettlements ps es).length ≤ ps.length - 1 := by
  by_cases hne : ps = []
  · subst hne
    rw [show computeSettlements [] es = [] from rfl]
    simp
  · have hcs : computeSettlements ps es = (settleRun ps es).settlements := by
      unfold computeSettlements
      rw [if_neg (by simp [hne])]
    rw [hcs]
    unfold settleRun at hconv ⊢
    have hsum := sumBal_initialBalances_nonpos hnd es hpos
    have hcount := runLoop_count 100 (initialBalances ps es) hsum hconv
    have hlen : nzCount (initialBalances ps es) ≤ ps.length := by
      have h2 := nzCount_le_length (initialBalances ps es)
      rw [show (initialBalances ps es).length = ps.length from by
        unfold initialBalances
        rw [List.length_map]] at h2
      exact h2
    omega

theorem bounded_output_witness :
    (computeSettlements [⟨"a", "A"⟩, ⟨"b", "B"⟩] [⟨"e1", "a", 100, none⟩]).length ≤
      ([⟨"a", "A"⟩, ⟨"b", "B"⟩] : List Participant).length - 1 := by
  have h0 : initialBalances [⟨"a", "A"⟩, ⟨"b", "B"⟩] [⟨"e1", "a", 100, none⟩] =
      [⟨"a", "A", 100, 50⟩, ⟨"b", "B", 0, -50⟩] := by
    norm_num [initialBalances, paidOf, sumAmounts, totalSpent, averageSpend, List.filter]
    decide
  have h1 : greedyStep [⟨"a", "A", 100, 50⟩, ⟨"b", "B", 0, -50⟩] =
      .step (some ⟨"b", "a", 50⟩) [⟨"b", "B", 0, 0⟩, ⟨"a", "A", 100, 0⟩] := by
    norm_num [greedyStep, sortBalances, balLE, applyTransfer, addLast, List.getLast, abs]
  have h2 : greedyStep [⟨"b", "B", 0, 0⟩, ⟨"a", "A", 100, 0⟩] =
      .done [⟨"b", "B", 0, 0⟩, ⟨"a", "A", 100, 0⟩] := by
    norm_num [greedyStep, sortBalances, balLE, List.getLast, abs]
  have hconv : (settleRun [⟨"a", "A"⟩, ⟨"b", "B"⟩]
      [⟨"e1", "a", 100, none⟩]).converged = true := by
    unfold settleRun
    rw [h0, show (100 : Nat) = 98 + 1 + 1 from rfl, runLoop_step_eq _ h1,
      runLoop_done_eq _ h2]
  exact bounded_output_of_nonneg [⟨"a", "A"⟩, ⟨"b", "B"⟩] [⟨"e1", "a", 100, none⟩]
    (by decide) (by decide) hconv

/-- C3 counterexample: with a negative-amount expense under a dangling
payer id, a two-participant run converges within the cap while emitting
two settlements, exceeding participantCount - 1 = 1. -/
theorem bounded_output_counterexample :
    (settleRun [⟨"a", "A"⟩, ⟨"b", "B"⟩]
      [⟨"e1", "a", 1/5, none⟩, ⟨"e2", "b", 3/2, none⟩,
        ⟨"e3", "x", -17/10, none⟩]).converged = true ∧
    ¬((computeSettlements [⟨"a", "A"⟩, ⟨"b", "B"⟩]
      [⟨"e1", "a", 1/5, none⟩, ⟨"e2", "b", 3/2, none⟩,
        ⟨"e3", "x", -17/10, none⟩]).length ≤
      ([⟨"a", "A"⟩, ⟨"b", "B"⟩] : List Participant).length - 1) := by
  have h0 : initialBalances [⟨"a", "A"⟩, ⟨"b", "B"⟩]
      [⟨"e1", "a", 1/5, none⟩, ⟨"e2", "b", 3/2, none⟩, ⟨"e3", "x", -17/10, none⟩] =
      [⟨"a", "A", 1/5, 1/5⟩, ⟨"b", "B", 3/2, 3/2⟩] := by
    norm_num [initialBalances, paidOf, sumAmounts, totalSpent, averageSpend, List.filter,
      show (("a" == "a") : Bool) = true from rfl, show (("b" == "a") : Bool) = false from rfl,
      show (("x" == "a") : Bool) = false from rfl, show (("a" == "b") : Bool) = false from rfl,
      show (("b" == "b") : Bool) = true from rfl, show (("x" == "b") : Bool) = false from rfl]
  have h1 : greedyStep [⟨"a", "A", 1/5, 1/5⟩, ⟨"b", "B", 3/2, 3/2⟩] =
      .step (some ⟨"a", "b", 1/5⟩) [⟨"a", "A", 1/5, 2/5⟩, ⟨"b", "B", 3/2, 13/10⟩] := by
    norm_num [greedyStep, sortBalances, balLE, applyTransfer, addLast, List.getLast, abs]
  have h2 : greedyStep [⟨"a", "A", 1/5, 2/5⟩, ⟨"b", "B", 3/2, 13/10⟩] =
      .step (some ⟨"a", "b", 2/5⟩) [⟨"a", "A", 1/5, 4/5⟩, ⟨"b", "B", 3/2, 9/10⟩] := by
    norm_num [greedyStep, sortBalances, balLE, applyTransfer, addLast, List.getLast, abs]
  have h3 : greedyStep [⟨"a", "A", 1/5, 4/5⟩, ⟨"b", "B", 3/2, 9/10⟩] =
      .done [⟨"a", "A", 1/5, 4/5⟩, ⟨"b", "B", 3/2, 9/10⟩] := by
    norm_num [greedyStep, sortBalances, balLE, List.getLast, abs]
  have hrun : runLoop 100
      [⟨"a", "A", 1/5, 1/5⟩, ⟨"b", "B", 3/2, 3/2⟩] =
      ⟨[⟨"a", "b", 1/5⟩, ⟨"a", "b", 2/5⟩],
        [⟨"a", "A", 1/5, 4/5⟩, ⟨"b", "B", 3/2, 9/10⟩], true, 2⟩ := by
    rw [show (100 : Nat) = 97 + 1 + 1 + 1 from rfl, runLoop_step_eq _ h1,
      runLoop_step_eq _ h2, runLoop_done_eq _ h3]
    rfl
  constructor
  · unfold settleRun
    rw [h0, hrun]
  · unfold computeSettlements
    rw [if_neg (by simp)]
    unfold settleRun
    rw [h0, hrun]
    decide

/-- C4 (amended): for a non-empty participants list with pairwise distinct
ids whose expenses each name an existing participant id, the sum over all
participants of balance = paid - average is exactly zero. -/
theorem balance_conservation (ps : List Participant) (es : List Expense)
    (hne : ps ≠ []) (hnd : (ps.map Participant.id).Nodup)
    (hmatch : ∀ e ∈ es, e.payerId ∈ ps.map Participant.id) :
    sumBal (initialBalances ps es) = 0 := by
  rw [sumBal_initialBalances hne, sumPaid_eq_totalSpent hnd es hmatch]
  ring

theorem balance_conservation_witness :
    sumBal (initialBalances [⟨"a", "A"⟩, ⟨"b", "B"⟩] [⟨"e1", "a", 100, none⟩]) = 0 :=
  balance_conservation [⟨"a", "A"⟩, ⟨"b", "B"⟩] [⟨"e1", "a", 100, none⟩]
    (by simp) (by decide) (by decide)

/-- C4 counterexample: with one participant and one expense whose payer id
matches no participant, the balance sum is -100, not 0. -/
theorem balance_sum_counterexample :
    sumBal (initialBalances [⟨"a", "A"⟩] [⟨"e1", "x", 100, none⟩]) = -100 ∧
    sumBal (initialBalances [⟨"a", "A"⟩] [⟨"e1", "x", 100, none⟩]) ≠ 0 := by
  have h0 : initialBalances [⟨"a", "A"⟩] [⟨"e1", "x", 100, none⟩] =
      [⟨"a", "A", 0, -100⟩] := by
    norm_num [initialBalances, paidOf, sumAmounts, totalSpent, averageSpend, List.filter,
      show (("x" == "a") : Bool) = false from rfl]
  rw [h0]
  norm_num [sumBal]

/-- C7: an expense whose payer id matches no participant contributes its
amount to totalSpent but to no participant's paid sum, and the computation
still returns a settlement list (the function is total and never raises). -/
theorem dangling_payer_tolerated (ps : List Participant) (es : List Expense)
    (e : Expense) (hdangling : e.payerId ∉ ps.map Participant.id) :
    totalSpent (e :: es) = e.amount + totalSpent es ∧
    (∀ p ∈ ps, paidOf (e :: es) p.id = paidOf es p.id) ∧
    ∃ l : List Settlement, computeSettlements (ps) (e :: es) = l := by
  refine ⟨totalSpent_cons e es, ?_, ⟨computeSettlements ps (e :: es), rfl⟩⟩
  intro p hp
  rw [paidOf_cons]
  rw [if_neg (fun h0 => hdangling (by
    rw [h0]
    exact List.mem_map_of_mem Participant.id hp))]
  ring

theorem dangling_payer_tolerated_witness :
    totalSpent [⟨"e9", "x", 7, none⟩] = 7 + totalSpent [] ∧
    (∀ p ∈ ([⟨"a", "A"⟩] : List Participant),
      paidOf [⟨"e9", "x", 7, none⟩] p.id = paidOf [] p.id) ∧
    ∃ l : List Settlement,
      computeSettlements [⟨"a", "A"⟩] [⟨"e9", "x", 7, none⟩] = l :=
  dangling_payer_tolerated [⟨"a", "A"⟩] [] ⟨"e9", "x", 7, none⟩ (by decide)

/-- C10 (amended): assuming pairwise distinct participant ids and
nonnegative expense amounts, every returned settlement has fromId distinct
from toId and both ids occur among the participants' ids; and a
single-participant input yields no settlements. -/
theorem settlement_ids (ps : List Participant) (es : List Expense)
    (hnd : (ps.map Participant.id).Nodup) (hpos : ∀ e ∈ es, 0 ≤ e.amount) :
    (∀ s ∈ computeSettlements ps es,
      s.fromId ≠ s.toId ∧ s.fromId ∈ ps.map Participant.id ∧
        s.toId ∈ ps.map Participant.id) ∧
    (ps.length = 1 → computeSettlements ps es = []) := by
  constructor
  · intro s hsm
    by_cases hne : ps = []
    · subst hne
      rw [show computeSettlements [] es = [] from rfl] at hsm
      cases hsm
    · have hcs : computeSettlements ps es = (settleRun ps es).settlements := by
        unfold computeSettlements
        rw [if_neg (by simp [hne])]
      rw [hcs] at hsm
      unfold settleRun at hsm
      have hsum := sumBal_initialBalances_nonpos hnd es hpos
      have hndb : ((initialBalances ps es).map Balance.id).Nodup := by
        rw [map_id_initialBalances]
        exact hnd
      refine ⟨runLoop_from_ne_to 100 _ hndb hsum s hsm, ?_, ?_⟩
      · have h2 := (runLoop_settle_ids 100 _ s hsm).1
        rw [map_id_initialBalances] at h2
        exact h2
      · have h2 := (runLoop_settle_ids 100 _ s hsm).2
        rw [map_id_initialBalances] at h2
        exact h2
  · intro hlen
    obtain ⟨p, hp⟩ := List.length_eq_one.mp hlen
    subst hp
    have hb : sumBal (initialBalances [p] es) ≤ 0 :=
      sumBal_initialBalances_nonpos hnd es hpos
    unfold computeSettlements
    rw [if_neg (by simp)]
    unfold settleRun
    rw [show initialBalances [p] es =
      [⟨p.id, p.name, paidOf es p.id, paidOf es p.id - averageSpend [p] es⟩] from rfl]
    apply runLoop_singleton
    show paidOf es p.id - averageSpend [p] es ≤ 0
    rw [show sumBal (initialBalances [p] es) =
      (paidOf es p.id - averageSpend [p] es) + 0 from rfl] at hb
    linarith

theorem settlement_ids_witness :
    computeSettlements [⟨"a", "A"⟩] [⟨"e1", "a", 100, none⟩] = [] :=
  (settlement_ids [⟨"a", "A"⟩] [⟨"e1", "a", 100, none⟩] (by decide) (by decide)).2
    (by decide)

/-- C10 counterexample: one participant (so ids are trivially unique) with
a negative-amount dangling expense makes the loop emit the settlement
`{fromId := "a", toId := "a", amount := 100}`, so a single-participant
input can produce settlements, with fromId equal to toId. -/
theorem distinct_ids_counterexample :
    (([⟨"a", "A"⟩] : List Participant).map Participant.id).Nodup ∧
    (⟨"a", "a", (100 : ℚ)⟩ : Settlement) ∈
      computeSettlements [⟨"a", "A"⟩] [⟨"e1", "x", -100, none⟩] ∧
    computeSettlements [⟨"a", "A"⟩] [⟨"e1", "x", -100, none⟩] ≠ [] ∧
    (⟨"a", "a", (100 : ℚ)⟩ : Settlement).fromId = (⟨"a", "a", (100 : ℚ)⟩ : Settlement).toId := by
  have h0 : initialBalances [⟨"a", "A"⟩] [⟨"e1", "x", -100, none⟩] =
      [⟨"a", "A", 0, 100⟩] := by
    norm_num [initialBalances, paidOf, sumAmounts, totalSpent, averageSpend, List.filter,
      show (("x" == "a") : Bool) = false from rfl]
  have h1 : greedyStep [⟨"a", "A", 0, 100⟩] =
      .step (some ⟨"a", "a", 100⟩) [⟨"a", "A", 0, 100⟩] := by
    norm_num [greedyStep, sortBalances, balLE, applyTransfer, addLast, List.getLast, abs]
  have hmem : (⟨"a", "a", (100 : ℚ)⟩ : Settlement) ∈
      computeSettlements [⟨"a", "A"⟩] [⟨"e1", "x", -100, none⟩] := by
    unfold computeSettlements
    rw [if_neg (by simp)]
    unfold settleRun
    rw [h0, show (100 : Nat) = 99 + 1 from rfl, runLoop_step_eq _ h1]
    exact List.mem_append_left _ (by simp)
  exact ⟨by decide, hmem, List.ne_nil_of_mem hmem, rfl⟩

/-- C6: for participants `[A, B, C]` and expenses `[A pays 90]`, the result is
exactly the two transfers `B → A` of 30 and `C → A` of 30 (in this order),
summing to 60. -/
theorem three_party_chain :
    computeSettlements
      [⟨"a", "A"⟩, ⟨"b", "B"⟩, ⟨"c", "C"⟩]
      [⟨"e1", "a", 90, none⟩] =
      [⟨"b", "a", 30⟩, ⟨"c", "a", 30⟩] := by
  have h0 : initialBalances
      [⟨"a", "A"⟩, ⟨"b", "B"⟩, ⟨"c", "C"⟩] [⟨"e1", "a", 90, none⟩] =
      [⟨"a", "A", 90, 60⟩, ⟨"b", "B", 0, -30⟩, ⟨"c", "C", 0, -30⟩] := by
    norm_num [initialBalances, paidOf, sumAmounts, totalSpent, averageSpend, List.filter]
    decide
  have h1 : greedyStep [⟨"a", "A", 90, 60⟩, ⟨"b", "B", 0, -30⟩, ⟨"c", "C", 0, -30⟩] =
      .step (some ⟨"b", "a", 30⟩)
        [⟨"b", "B", 0, 0⟩, ⟨"c", "C", 0, -30⟩, ⟨"a", "A", 90, 30⟩] := by
    norm_num [greedyStep, sortBalances, balLE, applyTransfer, addLast, List.getLast, abs]
  have h2 : greedyStep [⟨"b", "B", 0, 0⟩, ⟨"c", "C", 0, -30⟩, ⟨"a", "A", 90, 30⟩] =
      .step (some ⟨"c", "a", 30⟩)
        [⟨"c", "C", 0, 0⟩, ⟨"b", "B", 0, 0⟩, ⟨"a", "A", 90, 0⟩] := by
    norm_num [greedyStep, sortBalances, balLE, applyTransfer, addLast, List.getLast, abs]
  have h3 : greedyStep [⟨"c", "C", 0, 0⟩, ⟨"b", "B", 0, 0⟩, ⟨"a", "A", 90, 0⟩] =
      .done [⟨"c", "C", 0, 0⟩, ⟨"b", "B", 0, 0⟩, ⟨"a", "A", 90, 0⟩] := by
    norm_num [greedyStep, sortBalances, balLE, List.getLast, abs]
  rw [computeSettlements, settleRun, h0]
  rw [show (100 : Nat) = 97 + 1 + 1 + 1 from rfl, runLoop_step_eq _ h1,
    runLoop_step_eq _ h2, runLoop_done_eq _ h3]
  simp

end TravelCal
